import Mathlib

/-!
Verification of the `cplate` distributed MCMC deconvolution engine
(`lib/cplate/deconvolve_mcmc.py`) against its natural-language
specification.

The Python source is shallowly embedded below:
* positions and slice indices are `ℤ` (Python ints; `max`/`min`
  clamping is written exactly as in the source),
* schedule arithmetic (`np.arange` over non-negative starts) is `ℕ`,
* floating-point values (`theta`, `mu`, `sigmasq`, counts) are `ℚ`;
  transcendental functions (`log`, `sqrt`) and the external library
  calls (`lib_deconvolve_em`, CHOLMOD) that the engine only passes
  values through are abstracted as explicit function parameters /
  per-call oracles, so every definition stays computable and the
  control flow of the engine itself is embedded faithfully.
-/

namespace Cplate

/-! ## Block schedule (master, lines 326–329)

`start_vec = concat(arange(0, L, bw), arange(bw/2, L, bw))`, shuffled
each iteration.  `npArange a stop step` is `np.arange(a, stop, step)`
for naturals with `step > 0`. -/

/-- `np.arange(a, stop, step)` for naturals (`step > 0`):
the list `[a, a+step, ...)` of all `a + k*step < stop`. -/
def npArange (a stop step : ℕ) : List ℕ :=
  (List.range ((stop - a + step - 1) / step)).map (fun k => a + k * step)

/-- The master's per-iteration block schedule:
`start_vec = [np.arange(0, L, bw), np.arange(bw/2, L, bw)]` concatenated
(deconvolve_mcmc.py lines 326–329).  The per-iteration
`np.random.shuffle` permutes this list; coverage counts are
permutation-invariant, which the theorems account for explicitly. -/
def startVec (L bw : ℕ) : List ℕ :=
  npArange 0 L bw ++ npArange (bw / 2) L bw

/-- Whether position `p` lies in the output range `[s, min(s+bw, L))` of
the block with start offset `s` — the range the master writes with
`theta[t, start:end] = ret_val[:end-start]` (lines 377–379). -/
def inBlock (L bw s p : ℕ) : Bool :=
  decide (s ≤ p) && decide (p < min (s + bw) L)

/-- Number of dispatched blocks of one iteration whose output range
contains position `p` = number of times the master writes
`theta[t, p]` during that iteration's merge loop. -/
def coverCount (L bw p : ℕ) : ℕ :=
  ((startVec L bw).filter (fun s => inBlock L bw s p)).length

/-! ## Worker block geometry (worker, lines 470–512)

All quantities are Python ints; slice bounds are kept exactly as the
source computes them (`subset` is in padded-block-local coordinates). -/

/-- `w = template.size/2 + 1` (line 471, Python 2 integer division). -/
def halfW (templateSize : ℕ) : ℕ := templateSize / 2 + 1

/-- `end = min(chrom_length, start + block_width)` (line 504). -/
def pyEnd (L bw s : ℤ) : ℤ := min L (s + bw)

/-- Lower edge of the padded block: `max(start - w, 0)` (line 505). -/
def blockLo (w s : ℤ) : ℤ := max (s - w) 0

/-- Upper edge of the padded block: `min(end + w, chrom_length)`
(line 505). -/
def blockHi (L bw w s : ℤ) : ℤ := min (pyEnd L bw s + w) L

/-- `size_block = block.stop - block.start` (line 506). -/
def sizeBlock (L bw w s : ℤ) : ℤ := blockHi L bw w s - blockLo w s

/-- `subset.start = w*(start != 0) + start - block.start`
(line 508), in padded-block-local coordinates. -/
def subsetLo (w s : ℤ) : ℤ :=
  (if s ≠ 0 then w else 0) + s - blockLo w s

/-- `subset.stop = size_block - w*(end != chrom_length) - (block.stop - end)`
(line 509), in padded-block-local coordinates. -/
def subsetHi (L bw w s : ℤ) : ℤ :=
  sizeBlock L bw w s - (if pyEnd L bw s ≠ L then w else 0)
    - (blockHi L bw w s - pyEnd L bw s)

/-- `original.start = start - block.start` (line 512). -/
def originalLo (w s : ℤ) : ℤ := s - blockLo w s

/-- `original.stop = size_block - (block.stop - end)` (line 512). -/
def originalHi (L bw w s : ℤ) : ℤ :=
  sizeBlock L bw w s - (blockHi L bw w s - pyEnd L bw s)

/-! ## Value-level helpers

`ℚ` stands for the Python floats.  A vector indexed by genome position
is a function `ℤ → ℚ`; `sliceZ f a b` is the NumPy slice `f[a:b]`. -/

/-- NumPy slice `f[a:b]` of a position-indexed vector. -/
def sliceZ (f : ℤ → ℚ) (a b : ℤ) : List ℚ :=
  (List.range (b - a).toNat).map (fun i => f (a + (i : ℤ)))

/-- `np.max` of a vector given as a list (`0` on the empty list, which
never occurs in the modelled calls). -/
def listMax : List ℚ → ℚ
  | [] => 0
  | x :: xs => xs.foldl max x

/-- `np.mean` of a list (`sum / length`). -/
def listMean (xs : List ℚ) : ℚ := xs.sum / xs.length

/-- `np.var` of a list: the population variance, the mean of the
squared deviations from the mean. -/
def listVar (xs : List ℚ) : ℚ :=
  listMean (xs.map (fun x => (x - listMean xs) ^ 2))

/-! ## Region-level Gibbs draw quantities (master, lines 396–410, and
initialize, lines 195–199) -/

/-- `shape_sigmasq = region_sizes[r]/2. + a0` in the master's
per-iteration Gibbs update (line 400). -/
def shape_sigmasq_gibbs (n : ℕ) (a0 : ℚ) : ℚ := (n : ℚ) / 2 + a0

/-- `shape_sigmasq = region_sizes[r]/.2 + a0` in `initialize`
(line 196; note the divisor is `.2`, i.e. one fifth, not `2`). -/
def shape_sigmasq_init (n : ℕ) (a0 : ℚ) : ℚ := (n : ℚ) / 0.2 + a0

/-- `rate_sigmasq` of the master's Gibbs update (lines 401–403):
`var(theta[t,region])*n/2 + b0 + k0*n/2/(1+k0)*(mean(theta[t,region]) - prior_mean[r])**2`
with `xs = theta[t, region]` and `n = xs.length = region_sizes[r]`. -/
def rate_sigmasq (b0 k0 pm : ℚ) (xs : List ℚ) : ℚ :=
  listVar xs * xs.length / 2 + b0
    + k0 * xs.length / 2 / (1 + k0) * (listMean xs - pm) ^ 2

/-- `sigmasq[t,r] = rate_sigmasq / np.random.gamma(shape, scale=1.)`
(lines 404–405); the positive gamma variate is the argument `g`. -/
def sigmasqDraw (b0 k0 pm : ℚ) (xs : List ℚ) (g : ℚ) : ℚ :=
  rate_sigmasq b0 k0 pm xs / g

/-- `mean_mu = (mean(theta[t,region]) + prior_mean[r]*k0)/(1.0 + k0)`
(line 408). -/
def mean_mu (k0 pm : ℚ) (xs : List ℚ) : ℚ :=
  (listMean xs + pm * k0) / (1 + k0)

/-- `mu[t,r] = mean_mu + sqrt(var_mu)*randn()` (lines 409–410) with
`var_mu = sigmasq[t,r]/(1+k0)/region_sizes[r]`; the square root is the
abstract parameter `sqrtf` and the standard-normal variate is `z`. -/
def muDraw (sqrtf : ℚ → ℚ) (k0 pm : ℚ) (xs : List ℚ) (sigmasq_t : ℚ)
    (z : ℚ) : ℚ :=
  mean_mu k0 pm xs + sqrtf (sigmasq_t / (1 + k0) / xs.length) * z

/-! ## Adaptive prior mean (master, lines 264–266 and 295–307) -/

/-- The master's `prior_mean[r]` (lines 295–307).  When `mu0` is unset
(`none`), the zero vector receives
`prior_mean[coverage>0] = log(coverage[coverage>0]) - sigmasq0/2` with
`sigmasq0 = b0/a0` and `coverage[r] = mean(y[region_list[r]])`;
otherwise `prior_mean += mu0` leaves every entry at `mu0`.
The natural log on the positive coverage values is the abstract
parameter `logf`; `lo r`/`hi r` are the bounds of the contiguous slice
`region_list[r]`. -/
def priorMean (logf : ℚ → ℚ) (mu0 : Option ℚ) (a0 b0 : ℚ) (y : ℤ → ℚ)
    (lo hi : ℕ → ℤ) (r : ℕ) : ℚ :=
  match mu0 with
  | some m => 0 + m
  | none =>
      let coverage := listMean (sliceZ y (lo r) (hi r))
      if 0 < coverage then logf coverage - (b0 / a0) / 2 else 0

/-! ## Data loading (`load_data`, lines 83–105)

The file parsing itself is I/O; the loaded per-chromosome read counts
and raw region labels are the arguments.  The length-reconciliation
logic of lines 83–87 and 104–105 is embedded exactly. -/

/-- The parts of `load_data`'s result that the length-handling logic
determines. -/
structure LoadedData where
  y : List ℚ
  regionTypes : List ℤ

/-- Minimum of a list of integers (`np.min`; `0` on the empty list,
which never occurs for a loaded chromosome). -/
def listMinZ : List ℤ → ℤ
  | [] => 0
  | x :: xs => xs.foldl min x

/-- `load_data` after the two input vectors are parsed (lines 83–105):
`chrom_length = min(region_types.size, reads.size)`, both vectors are
truncated to `chrom_length`, and the region labels are shifted to start
at `0`.  There is no failure path: mismatched lengths are reconciled by
truncation and the function returns normally. -/
def load_data (reads : List ℚ) (regionTypesRaw : List ℤ) : LoadedData :=
  let chromLength := min regionTypesRaw.length reads.length
  let rt := regionTypesRaw.take chromLength
  { y := reads.take chromLength
    regionTypes := rt.map (fun x => x - listMinZ rt) }

/-! ## Worker WORK-command handler (worker, lines 502–614)

The numerics done by the external libraries are per-command oracle
inputs: whether CHOLMOD's `cholesky(info)` raises (`cholOk`), the
mode-plus-perturbation vector `theta_draw` produced from the
`lib.deconvolve` optimum and the Student-t draw (`draw`, indexed by
subset-local offset), the two `lib.loglik_convolve`-based ratio values
(`ltr` = `log_target_ratio`, `lpr` = `log_prop_ratio`), and the
logarithm of the MH uniform variate (`logU`).  The engine's own control
flow — slice geometry, overflow guard, reject paths, what is written
into `ret_val[:end-start]`, and the tag — is embedded exactly. -/

/-- Per-WORK-command oracle: outcomes of the external numeric calls. -/
structure WorkOracle where
  cholOk : Bool
  draw : ℤ → ℚ
  ltr : ℚ
  lpr : ℚ
  logU : ℚ

/-- A worker's reply to one WORK command: the MPI tag (`1` accept /
`0` reject), the `ret_val[:end-start]` payload merged by the master,
and whether the MH target/proposal ratio was evaluated on the way. -/
structure WorkOut where
  tag : ℕ
  vals : List ℚ
  mhEvaluated : Bool
  deriving DecidableEq

/-- `theta_prop`: the block copy of `theta` with the subset replaced by
`theta_draw` (lines 567–568), expressed as a full position-indexed
vector (it agrees with `theta` outside the subset). -/
def thetaProp (L bw w : ℤ) (θ : ℤ → ℚ) (o : WorkOracle) (s : ℤ) :
    ℤ → ℚ :=
  fun p =>
    if blockLo w s + subsetLo w s ≤ p ∧ p < blockLo w s + subsetHi L bw w s
    then o.draw (p - (blockLo w s + subsetLo w s))
    else θ p

/-- The worker's handling of one `WORKTAG` command (lines 502–614),
given its current local `theta`, the start offset `s` and the oracle.
`M` is the overflow threshold `np.log(np.finfo(np.float).max)/2.`
(line 571).  The three reject paths and the accept path return exactly
the slices the source writes into `ret_val[:end-start]`:
`theta_block[original] = theta[start:end]` on rejection and
`theta_prop[original] = theta_prop[start:end]` on acceptance. -/
def workResponse (L bw w : ℤ) (M : ℚ) (θ : ℤ → ℚ) (o : WorkOracle)
    (s : ℤ) : WorkOut :=
  let e := pyEnd L bw s
  if o.cholOk = false then
    -- `except: accept = 0; ret_val[:end-start] = theta_block[original]`
    ⟨0, sliceZ θ s e, false⟩
  else
    let θp := thetaProp L bw w θ o s
    if M ≤ listMax (sliceZ θp (blockLo w s) (blockHi L bw w s)) then
      -- overflow guard: `accept = 0` without touching the MH ratio
      ⟨0, sliceZ θ s e, false⟩
    else
      if o.logU < o.ltr - o.lpr then ⟨1, sliceZ θp s e, true⟩
      else ⟨0, sliceZ θ s e, true⟩

/-- Commands a worker can receive (tags `STOPTAG`, `SYNCTAG`,
`WORKTAG`, `UPDATETAG`).  `sync`/`update` carry the new `theta`
snapshot (the broadcast `mu`/`sigmasq` only feed the oracle-abstracted
library calls and are omitted from the worker state). -/
inductive Cmd where
  | sync (θn : ℤ → ℚ)
  | work (s : ℤ) (o : WorkOracle)
  | update (θn : ℤ → ℚ)
  | stop

/-- The worker's `while working:` receive loop (lines 490–617): each
WORK command produces one reply and the loop continues with the same
local `theta`; `sync`/`update` replace the local `theta`; `stop` ends
the loop. -/
def workerLoop (L bw w : ℤ) (M : ℚ) : List Cmd → (ℤ → ℚ) → List WorkOut
  | [], _ => []
  | Cmd.stop :: _, _ => []
  | Cmd.sync θn :: rest, _ => workerLoop L bw w M rest θn
  | Cmd.update θn :: rest, _ => workerLoop L bw w M rest θn
  | Cmd.work s o :: rest, θ =>
      workResponse L bw w M θ o s :: workerLoop L bw w M rest θ

/-! ## Master merge loop for one iteration (master, lines 335–392)

One iteration's distributed `theta` update, serialized as the code
executes it with one worker (`n_proc = 2`): the master initializes
`theta[t] = theta[t-1]`, then for each scheduled job sends the worker
(whose local `theta` was synchronized to `theta[t-1]` and is refreshed
with the current `theta[t]` by an UPDATE before every job after the
first) the start offset and merges the reply with
`theta[t, start:end] = ret_val[:end-start]`.  Consequently the worker's
local `theta` equals the master's current `theta[t]` at every job, so a
rejected job writes back the current values of its own output range and
an accepted job writes the proposal values (an oracle input, as the
proposal depends on the external numeric draws). -/

/-- One scheduled job together with its (oracle) outcome: the start
offset, whether the MH step accepted, and the accepted proposal values
for the output range (indexed by offset from `start`; ignored on
rejection). -/
structure Job where
  start : ℤ
  accept : Bool
  prop : ℤ → ℚ

/-- `theta[t, start:end] = vals` — the master's merge of one reply
(line 379), as a pointwise update of the current row. -/
def mergeWrite (L bw : ℤ) (s : ℤ) (vals : ℤ → ℚ) (θ : ℤ → ℚ) :
    ℤ → ℚ :=
  fun p => if s ≤ p ∧ p < pyEnd L bw s then vals (p - s) else θ p

/-- Merge one job's reply into the master's current `theta[t]` row:
an accepted job contributes its proposal values, a rejected one the
worker's current values of the range (= the master's current values,
see the serialization note above). -/
def mergeJob (L bw : ℤ) (θ : ℤ → ℚ) (j : Job) : ℤ → ℚ :=
  if j.accept then mergeWrite L bw j.start j.prop θ
  else mergeWrite L bw j.start (fun i => θ (j.start + i)) θ

/-- Run one iteration's job list in dispatch order, starting from
`theta[t] = theta[t-1]`. -/
def runJobs (L bw : ℤ) (θ0 : ℤ → ℚ) : List Job → (ℤ → ℚ)
  | [] => θ0
  | j :: rest => runJobs L bw (mergeJob L bw θ0 j) rest

/-! ## Full master run: the draw-history arrays (master, lines 278–425)

`theta`, `mu`, `sigmasq` are each allocated once, shaped
`(max_iter, ·)`, rows `0` seeded from `initialize`; iteration
`t = 1 .. max_iter-1` fills row `t` of each from row `t-1` (lines
335–410).  The histories are position-indexed functions and each
iteration's in-place writes `theta[t] = ...`, `sigmasq[t,r] = ...`,
`mu[t,r] = ...` are row-`t` updates of those functions. -/

/-- Static configuration of the master's loop: chromosome length,
block width, the `sigmasq` prior `b0`, the shrinkage weight `k0`, the
per-region prior means (computed once before the loop), the contiguous
region slices `region_list[r] = [lo r, hi r)`, and the abstract square
root used by the `mu` draw. -/
structure McmcCfg where
  L : ℤ
  bw : ℤ
  b0 : ℚ
  k0 : ℚ
  pm : ℕ → ℚ
  lo : ℕ → ℤ
  hi : ℕ → ℤ
  sqrtf : ℚ → ℚ

/-- Per-iteration oracle: the shuffled job schedule with its MH
outcomes, and the gamma / standard-normal variates of the region-level
Gibbs draws. -/
structure IterOracle where
  jobs : List Job
  g : ℕ → ℚ
  z : ℕ → ℚ

/-- The three draw-history arrays, indexed by iteration row. -/
structure McmcState where
  theta : ℕ → ℤ → ℚ
  mu : ℕ → ℕ → ℚ
  sigmasq : ℕ → ℕ → ℚ

/-- In-place write of row `t` of a history array. -/
def setRow {β : Type} (h : ℕ → β) (t : ℕ) (row : β) : ℕ → β :=
  fun s => if s = t then row else h s

/-- One master iteration `t ≥ 1` (lines 335–410): the distributed
`theta[t]` update starting from `theta[t] = theta[t-1]`, then for each
region the `sigmasq[t,r]` inverse-gamma draw followed by the
`mu[t,r] | sigmasq[t,r]` normal draw, all written into row `t`. -/
def masterIter (cfg : McmcCfg) (o : IterOracle) (t : ℕ)
    (st : McmcState) : McmcState :=
  let θrow := runJobs cfg.L cfg.bw (st.theta (t - 1)) o.jobs
  let σrow := fun r =>
    sigmasqDraw cfg.b0 cfg.k0 (cfg.pm r)
      (sliceZ θrow (cfg.lo r) (cfg.hi r)) (o.g r)
  let μrow := fun r =>
    muDraw cfg.sqrtf cfg.k0 (cfg.pm r)
      (sliceZ θrow (cfg.lo r) (cfg.hi r)) (σrow r) (o.z r)
  ⟨setRow st.theta t θrow, setRow st.mu t μrow, setRow st.sigmasq t σrow⟩

/-- The master's outer loop after `n` iterations: `masterRun cfg os
init n` is the state after iterations `1 .. n` have completed
(`init` holds the seeded rows `0`). -/
def masterRun (cfg : McmcCfg) (os : ℕ → IterOracle) (init : McmcState) :
    ℕ → McmcState
  | 0 => init
  | t + 1 => masterIter cfg (os (t + 1)) (t + 1) (masterRun cfg os init t)

/-! ## Helper lemmas -/

/-- If a Boolean predicate holds exactly at `j`, its count over
`range n` is `1` when `j < n` and `0` otherwise. -/
theorem countP_range_ite (P : ℕ → Bool) (j n : ℕ)
    (h : ∀ k, P k = true ↔ k = j) :
    (List.range n).countP P = if j < n then 1 else 0 := by
  induction n with
  | zero => simp
  | succ n ih =>
    rw [List.range_succ, List.countP_append, ih, List.countP_cons]
    by_cases hn : P n = true
    · have hj : n = j := (h n).mp hn
      rw [if_neg (by omega : ¬ j < n), if_pos (by omega : j < n + 1),
        if_pos hn]
      simp
    · have hj : n ≠ j := fun hc => hn ((h n).mpr hc)
      rw [if_neg hn]
      simp only [List.countP_nil]
      split_ifs <;> omega

/-- Each single scan `np.arange(a, L, bw)` of the schedule covers a
position `p < L` by exactly one block if `a ≤ p`, by none otherwise:
the blocks `[s, min(s+bw, L))` of one scan tile `[a, L)`. -/
theorem arange_block_count (a L bw p : ℕ) (hbw : 0 < bw) (hpL : p < L) :
    (npArange a L bw).countP (fun s => inBlock L bw s p)
      = if a ≤ p then 1 else 0 := by
  unfold npArange
  rw [List.countP_map]
  by_cases hap : a ≤ p
  · rw [countP_range_ite _ ((p - a) / bw) _ ?_]
    · rw [if_pos hap, if_pos ?_]
      have e1 : L - a + bw - 1 = (L - 1 - a) + bw := by omega
      rw [e1, Nat.add_div_right _ hbw]
      have e3 : (p - a) / bw ≤ (L - 1 - a) / bw :=
        Nat.div_le_div_right (by omega)
      omega
    · intro k
      simp only [Function.comp, inBlock, Bool.and_eq_true,
        decide_eq_true_eq, lt_min_iff]
      constructor
      · rintro ⟨h1, h2, -⟩
        have hd : (k + 1) * bw = k * bw + bw := by ring
        have hk1 : k ≤ (p - a) / bw := by
          rw [Nat.le_div_iff_mul_le hbw]; omega
        have hk2 : (p - a) / bw < k + 1 := by
          rw [Nat.div_lt_iff_lt_mul hbw]; omega
        omega
      · rintro rfl
        have h1 : (p - a) / bw * bw ≤ p - a := Nat.div_mul_le_self _ _
        have hd : ((p - a) / bw + 1) * bw = (p - a) / bw * bw + bw := by
          ring
        have h2 : p - a < ((p - a) / bw + 1) * bw := by
          rw [← Nat.div_lt_iff_lt_mul hbw]; omega
        exact ⟨by omega, by omega, hpL⟩
  · rw [if_neg hap, List.countP_eq_zero]
    intro k _
    simp only [Function.comp, inBlock, Bool.and_eq_true,
      decide_eq_true_eq, lt_min_iff, not_and]
    intro h1
    omega

/-- Exact per-iteration write multiplicity of the double-scan schedule:
a position `p < L` is covered by exactly one block of the first scan,
plus one block of the second scan when `bw/2 ≤ p`. -/
theorem coverCount_eq (L bw p : ℕ) (hbw : 0 < bw) (hpL : p < L) :
    coverCount L bw p = if p < bw / 2 then 1 else 2 := by
  unfold coverCount startVec
  rw [← List.countP_eq_length_filter, List.countP_append,
    arange_block_count 0 L bw p hbw hpL,
    arange_block_count (bw / 2) L bw p hbw hpL]
  by_cases h : p < bw / 2
  · rw [if_pos h, if_pos (by omega), if_neg (by omega)]
  · rw [if_neg h, if_pos (by omega), if_pos (by omega)]

/-! ## Claim C10 -/

/-- **C10.** In `initialize` (not loading from EM files), the gamma
shape for the `sigmasq` draw of region `r` is
`region_sizes[r]/.2 + a0 = 5*region_sizes[r] + a0`, which for every
region of positive size differs from the shape
`region_sizes[r]/2. + a0` used by the master's per-iteration Gibbs
update for the same conditional draw. -/
theorem C10_init_shape_differs (n : ℕ) (a0 : ℚ) :
    shape_sigmasq_init n a0 = 5 * (n : ℚ) + a0 ∧
    (0 < n → shape_sigmasq_init n a0 ≠ shape_sigmasq_gibbs n a0) := by
  constructor
  · unfold shape_sigmasq_init
    norm_num
    ring
  · intro hn h
    unfold shape_sigmasq_init shape_sigmasq_gibbs at h
    have hq : (0 : ℚ) < (n : ℚ) := by exact_mod_cast hn
    have h2 : (n : ℚ) / 0.2 = (n : ℚ) / 2 := by linarith
    norm_num at h2
    linarith

/-- Witness for C10 at `region_sizes[r] = 4`, `a0 = 1`
(shapes `21` versus `3`). -/
theorem C10_init_shape_differs_witness :
    0 < 4 ∧ shape_sigmasq_init 4 1 ≠ shape_sigmasq_gibbs 4 1 :=
  ⟨by decide, (C10_init_shape_differs 4 1).2 (by decide)⟩

/-! ## Claim C4 -/

/-- **C4 counterexample.** For the odd template length `5` the claim's
half-width is `(5-1)/2 = 2`, but the code computes
`w = template.size/2 + 1 = 3`, so at `start = 50` the claimed padded
block lower edge `max(50-2, 0) = 48` differs from the code's
`max(50-3, 0) = 47`. -/
theorem C4_counterexample :
    halfW 5 ≠ (5 - 1) / 2 ∧
    blockLo ((halfW 5 : ℕ) : ℤ) 50 ≠ max (50 - (((5 - 1) / 2 : ℕ) : ℤ)) 0 := by
  decide

/-- **C4 as amended.** For every WORK command the worker computes
`end = min(start + block_width, L)` and pads to
`[max(start - w, 0), min(end + w, L))`, where
`w = template.size/2 + 1`; for an odd template of length `2k+1` this is
`w = k + 1`, one more than the template half-width `k = (size-1)/2`
asserted by the claim. -/
theorem C4_padded_block (k : ℕ) (L bw s : ℤ) :
    halfW (2 * k + 1) = k + 1 ∧
    pyEnd L bw s = min (s + bw) L ∧
    blockLo ((k : ℤ) + 1) s = max (s - ((k : ℤ) + 1)) 0 ∧
    blockHi L bw ((k : ℤ) + 1) s = min (pyEnd L bw s + ((k : ℤ) + 1)) L := by
  refine ⟨?_, ?_, rfl, rfl⟩
  · unfold halfW
    omega
  · unfold pyEnd
    rw [min_comm]

/-! ## Claim C3 -/

/-- **C3 counterexample.** With `w = 3` (template length 5), `L = 100`,
`block_width = 10`, `start = 50` (an interior block), the solver/draw
subset is the global range `[53, 57)`, not the output range
`[50, 60)`: it is trimmed by `w` at both interior block edges. -/
theorem C3_counterexample :
    blockLo 3 50 + subsetLo 3 50 ≠ 50 ∧
    blockLo 3 50 + subsetHi 100 10 3 50 ≠ pyEnd 100 10 50 := by
  decide

/-- **C3 as amended.** For every WORK command the subset on which the
worker runs the solver and draws the perturbation is, in global
coordinates, `[start + w·[start ≠ 0], end - w·[end ≠ L])`: the output
range `[start, end)` shrunk by `w` at every block edge interior to the
sequence, with no shrinking at the global boundaries.  (The slice
`original` that is *returned* to the master is exactly `[start, end)`.) -/
theorem C3_subset_trimmed (L bw w s : ℤ) :
    blockLo w s + subsetLo w s = s + (if s = 0 then 0 else w) ∧
    blockLo w s + subsetHi L bw w s
      = pyEnd L bw s - (if pyEnd L bw s = L then 0 else w) ∧
    blockLo w s + originalLo w s = s ∧
    blockLo w s + originalHi L bw w s = pyEnd L bw s := by
  refine ⟨?_, ?_, ?_, ?_⟩
  · unfold subsetLo
    by_cases hs : s = 0 <;> (simp [hs]; try ring)
  · unfold subsetHi sizeBlock
    by_cases he : pyEnd L bw s = L <;> (simp [he]; try ring)
  · unfold originalLo
    ring
  · unfold originalHi sizeBlock
    ring

/-! ## Claim C7 -/

/-- **C7 counterexample.** Counts of length `5` and region labels of
length `3` for the same chromosome: `load_data` does not fail — it
silently truncates both vectors to the common minimum length `3` and
returns normally, after which sampling proceeds on the truncated
data. -/
theorem C7_counterexample :
    ([(1 : ℚ), 2, 3, 4, 5].length ≠ ([0, 0, 7] : List ℤ).length) ∧
    (load_data [1, 2, 3, 4, 5] [0, 0, 7]).y = [1, 2, 3] ∧
    (load_data [1, 2, 3, 4, 5] [0, 0, 7]).regionTypes = [0, 0, 7] := by
  decide

/-- **C7 as amended.** When the counts vector and the region-label
vector loaded for a chromosome have mismatched lengths, `load_data`
reconciles them by truncating both to
`chrom_length = min(region_types.size, reads.size)` and returns
normally; no error is surfaced and the run proceeds to sampling on the
truncated data. -/
theorem C7_truncates_to_min (reads : List ℚ) (rts : List ℤ) :
    (load_data reads rts).y = reads.take (min rts.length reads.length) ∧
    (load_data reads rts).y.length = min rts.length reads.length ∧
    (load_data reads rts).regionTypes.length
      = min rts.length reads.length := by
  unfold load_data
  refine ⟨rfl, ?_, ?_⟩
  · simp only [List.length_take]
    omega
  · simp only [List.length_map, List.length_take]
    omega

/-! ## Claim C1 -/

/-- **C1 counterexample.** In the concrete scenario `L = 20`,
`block_width = 10`, the iteration's schedule is the concatenation
`[0, 10] ++ [5, 15]` of both interleaved scans, all dispatched in the
same iteration, so it is not the case that every position is written
exactly once: positions `5..19` lie in the output ranges of two
dispatched blocks (e.g. position `5` is in `[0, 10)` and `[5, 15)`). -/
theorem C1_counterexample :
    ¬ (∀ p, p < 20 → coverCount 20 10 p = 1) := by
  decide

/-- **C1 as amended.** For every iteration (every shuffled permutation
of the schedule), the union of the dispatched blocks' output ranges
`[start, min(start + block_width, L))` is all of `[0, L)` with no gaps,
but not with multiplicity one: each position `p < block_width/2` is
written by exactly one block and each position `p ≥ block_width/2` by
exactly two (one per interleaved scan).  In the concrete scenario
`L = 20`, `block_width = 10`, positions `0..4` receive a value from one
block and positions `5..19` from two blocks per iteration. -/
theorem C1_schedule_coverage (sched : List ℕ) (L bw p : ℕ)
    (hperm : sched.Perm (startVec L bw)) (hbw : 0 < bw) (hpL : p < L) :
    1 ≤ (sched.filter (fun s => inBlock L bw s p)).length ∧
    (sched.filter (fun s => inBlock L bw s p)).length
      = if p < bw / 2 then 1 else 2 := by
  have hc : (sched.filter (fun s => inBlock L bw s p)).length
      = coverCount L bw p := by
    unfold coverCount
    rw [← List.countP_eq_length_filter, ← List.countP_eq_length_filter]
    exact hperm.countP_eq _
  rw [hc, coverCount_eq L bw p hbw hpL]
  split_ifs <;> omega

/-- Witness for C1 on the unshuffled schedule of the concrete scenario
(`L = 20`, `block_width = 10`) at position `p = 7`. -/
theorem C1_schedule_coverage_witness :
    0 < 10 ∧ 7 < 20 ∧
    1 ≤ ((startVec 20 10).filter (fun s => inBlock 20 10 s 7)).length ∧
    ((startVec 20 10).filter (fun s => inBlock 20 10 s 7)).length
      = if 7 < 10 / 2 then 1 else 2 :=
  ⟨by decide, by decide,
    C1_schedule_coverage (startVec 20 10) 20 10 7 (List.Perm.refl _)
      (by decide) (by decide)⟩

/-! ## Claim C2 -/

/-- **C2.** For every WORK command: if the sparse Cholesky
factorization of the local information matrix fails (`cholOk = false`),
or the proposal overflows the downstream exponential transform
(`max theta_prop ≥ M` with `M = log(max_float)/2`), the worker replies
with tag `0` and the unmodified previous `theta[start:end]` of the
block's output range, without evaluating the Metropolis–Hastings
ratio, and the worker loop goes on to process the remaining commands
(the sweep is never aborted by these conditions). -/
theorem C2_numeric_reject (L bw w : ℤ) (M : ℚ) (θ : ℤ → ℚ)
    (o : WorkOracle) (s : ℤ) (rest : List Cmd)
    (h : o.cholOk = false ∨
      M ≤ listMax (sliceZ (thetaProp L bw w θ o s) (blockLo w s)
            (blockHi L bw w s))) :
    workResponse L bw w M θ o s
        = ⟨0, sliceZ θ s (pyEnd L bw s), false⟩ ∧
    workerLoop L bw w M (Cmd.work s o :: rest) θ
        = workResponse L bw w M θ o s :: workerLoop L bw w M rest θ := by
  refine ⟨?_, rfl⟩
  by_cases hc : o.cholOk = false
  · simp [workResponse, hc]
  · rcases h with h | h
    · exact absurd h hc
    · simp [workResponse, hc, if_pos h]

/-- Witness for C2: a failed factorization at `start = 2` with
`L = 10`, `block_width = 5`, `w = 3` is answered by tag `0`, the
unchanged `theta[2:7]`, no MH evaluation, and the loop continues. -/
theorem C2_numeric_reject_witness :
    (WorkOracle.mk false (fun _ => 0) 0 0 0).cholOk = false ∧
    workResponse 10 5 3 100 (fun _ => 0)
        (WorkOracle.mk false (fun _ => 0) 0 0 0) 2
      = ⟨0, sliceZ (fun _ => 0) 2 (pyEnd 10 5 2), false⟩ ∧
    workerLoop 10 5 3 100
        (Cmd.work 2 (WorkOracle.mk false (fun _ => 0) 0 0 0) :: [])
        (fun _ => 0)
      = workResponse 10 5 3 100 (fun _ => 0)
          (WorkOracle.mk false (fun _ => 0) 0 0 0) 2
        :: workerLoop 10 5 3 100 [] (fun _ => 0) := by
  refine ⟨rfl, ?_, ?_⟩
  · exact (C2_numeric_reject 10 5 3 100 (fun _ => 0)
      (WorkOracle.mk false (fun _ => 0) 0 0 0) 2 [] (Or.inl rfl)).1
  · exact (C2_numeric_reject 10 5 3 100 (fun _ => 0)
      (WorkOracle.mk false (fun _ => 0) 0 0 0) 2 [] (Or.inl rfl)).2

/-! ## Claim C5 -/

/-- Processing a concatenated job list is processing the two parts in
sequence. -/
theorem runJobs_append (L bw : ℤ) (θ0 : ℤ → ℚ) (l1 l2 : List Job) :
    runJobs L bw θ0 (l1 ++ l2) = runJobs L bw (runJobs L bw θ0 l1) l2 := by
  induction l1 generalizing θ0 with
  | nil => rfl
  | cons j rest ih => simp [runJobs, ih]

/-- Merging a rejected job's reply writes the worker's current values
of the output range back over themselves: the master's row is
unchanged. -/
theorem mergeJob_reject (L bw : ℤ) (θ : ℤ → ℚ) (j : Job)
    (hj : j.accept = false) : mergeJob L bw θ j = θ := by
  funext p
  simp only [mergeJob, hj, Bool.false_eq_true, if_false, mergeWrite]
  split_ifs with h
  · congr 1
    ring
  · rfl

/-- A position that lies in no accepted job's output range is left at
its value from the start of the iteration. -/
theorem runJobs_untouched (L bw : ℤ) (θ0 : ℤ → ℚ) (jobs : List Job)
    (p : ℤ)
    (h : ∀ j ∈ jobs, j.accept = true →
      ¬ (j.start ≤ p ∧ p < pyEnd L bw j.start)) :
    runJobs L bw θ0 jobs p = θ0 p := by
  induction jobs generalizing θ0 with
  | nil => rfl
  | cons j rest ih =>
    have hrest := fun j' hj' => h j' (List.mem_cons_of_mem _ hj')
    show runJobs L bw (mergeJob L bw θ0 j) rest p = θ0 p
    rw [ih _ hrest]
    by_cases ha : j.accept = true
    · have hp := h j (List.mem_cons_self _ _) ha
      simp [mergeJob, ha, mergeWrite, hp]
    · rw [mergeJob_reject L bw θ0 j (by simpa using ha)]

/-- **C5 as amended.** After the coordinator merges a rejected block's
result, `theta[t, start:end]` holds the rejecting worker's current
values for that range; these coincide with `theta[t-1, start:end]`
precisely when no block accepted and merged earlier in the same
iteration overlaps `[start, end)` — e.g. always for the iteration's
first merged block — but not in general, because the double-scan
schedule dispatches overlapping output ranges within one iteration. -/
theorem C5_reject_restores_prev (L bw : ℤ) (θ0 : ℤ → ℚ) (pre : List Job)
    (jr : Job) (p : ℤ) (hrej : jr.accept = false)
    (hdisj : ∀ ji ∈ pre, ji.accept = true →
      pyEnd L bw ji.start ≤ jr.start ∨ pyEnd L bw jr.start ≤ ji.start)
    (hp : jr.start ≤ p ∧ p < pyEnd L bw jr.start) :
    runJobs L bw θ0 (pre ++ [jr]) p = θ0 p := by
  rw [runJobs_append]
  show runJobs L bw (mergeJob L bw (runJobs L bw θ0 pre) jr) [] p = θ0 p
  rw [mergeJob_reject L bw _ jr hrej]
  show runJobs L bw θ0 pre p = θ0 p
  apply runJobs_untouched
  intro ji hji hacc
  rcases hdisj ji hji hacc with h | h <;> (intro hcontra; omega)

/-- Witness for C5: with `L = 10`, `block_width = 5`,
`theta[t-1] ≡ 0`, an accepted block at `0` followed by a rejected block
at `5` (disjoint ranges), position `6` keeps its `theta[t-1]` value. -/
theorem C5_reject_restores_prev_witness :
    (Job.mk 5 false (fun _ => 0)).accept = false ∧
    runJobs 10 5 (fun _ => (0 : ℚ))
        ([Job.mk 0 true (fun _ => 1)] ++ [Job.mk 5 false (fun _ => 0)]) 6
      = (fun _ => (0 : ℚ)) 6 :=
  ⟨rfl, C5_reject_restores_prev 10 5 (fun _ => (0 : ℚ))
    [Job.mk 0 true (fun _ => 1)] (Job.mk 5 false (fun _ => 0)) 6 rfl
    (by decide) (by decide)⟩

/-- **C5 counterexample.** Same setting but with overlapping blocks as
the double-scan schedule produces them: `theta[t-1] ≡ 0`, an accepted
block at `0` writing value `1` on `[0, 5)`, then a rejected block at
`3` (output range `[3, 8)`).  After the rejected block's result is
merged, `theta[t, 3] = 1 ≠ 0 = theta[t-1, 3]`: rejection does not
restore `theta[t-1]` on the rejected block's range, because the
worker's refreshed local theta already contains the earlier accepted
overlapping draw. -/
theorem C5_counterexample :
    runJobs 10 5 (fun _ => (0 : ℚ))
        [Job.mk 0 true (fun _ => 1), Job.mk 3 false (fun _ => 0)] 3
      ≠ (fun _ => (0 : ℚ)) 3 := by
  decide

/-! ## Claim C6 -/

/-- The population variance of a list is non-negative. -/
theorem listVar_nonneg (xs : List ℚ) : 0 ≤ listVar xs := by
  unfold listVar listMean
  apply div_nonneg
  · apply List.sum_nonneg
    intro x hx
    obtain ⟨y, -, rfl⟩ := List.mem_map.mp hx
    positivity
  · positivity

/-- **C6.** The region-level Gibbs update produces
`sigmasq[t,r] = rate_sigmasq / gamma_draw > 0` for every non-empty
region, given the standing configuration facts `b0 > 0`, `k0 ≥ 0` and
that the gamma variate is positive; and it is well-defined for regions
of size 1, where the within-region sample variance is exactly `0` and
the rate collapses to `b0 + k0/2/(1+k0)*(mean - prior_mean)^2`, kept
positive (no degenerate zero rate, no 0/0) by the prior pseudo-count
`b0`. -/
theorem C6_sigmasq_positive (b0 k0 pm g : ℚ) (xs : List ℚ)
    (hxs : xs ≠ []) (hb0 : 0 < b0) (hk0 : 0 ≤ k0) (hg : 0 < g) :
    0 < sigmasqDraw b0 k0 pm xs g ∧
    (xs.length = 1 → listVar xs = 0 ∧
      rate_sigmasq b0 k0 pm xs
        = b0 + k0 / 2 / (1 + k0) * (listMean xs - pm) ^ 2) := by
  have hk1 : (0 : ℚ) < 1 + k0 := by linarith
  have hvar := listVar_nonneg xs
  have hlen : (0 : ℚ) ≤ (xs.length : ℚ) := by positivity
  have hrate : 0 < rate_sigmasq b0 k0 pm xs := by
    unfold rate_sigmasq
    have h1 : (0 : ℚ) ≤ listVar xs * xs.length / 2 := by positivity
    have h2 : (0 : ℚ)
        ≤ k0 * xs.length / 2 / (1 + k0) * (listMean xs - pm) ^ 2 := by
      positivity
    linarith
  refine ⟨div_pos hrate hg, fun h1 => ?_⟩
  obtain ⟨x, rfl⟩ := List.length_eq_one.mp h1
  have hv : listVar [x] = 0 := by
    simp [listVar, listMean]
  refine ⟨hv, ?_⟩
  unfold rate_sigmasq
  rw [hv]
  norm_num

/-- Witness for C6 on the size-1 region `theta[t, region] = [2]` with
`b0 = 1`, `k0 = 1`, `prior_mean = 0`, gamma variate `1`. -/
theorem C6_sigmasq_positive_witness :
    ([(2 : ℚ)] ≠ []) ∧ (0 : ℚ) < 1 ∧ (0 : ℚ) ≤ 1 ∧
    0 < sigmasqDraw 1 1 0 [(2 : ℚ)] 1 ∧
    (listVar [(2 : ℚ)] = 0 ∧
      rate_sigmasq 1 1 0 [(2 : ℚ)]
        = 1 + 1 / 2 / (1 + 1) * (listMean [(2 : ℚ)] - 0) ^ 2) :=
  ⟨by decide, by decide, by decide,
    (C6_sigmasq_positive 1 1 0 1 [(2 : ℚ)] (by decide) (by decide)
      (by decide) (by decide)).1,
    (C6_sigmasq_positive 1 1 0 1 [(2 : ℚ)] (by decide) (by decide)
      (by decide) (by decide)).2 (by decide)⟩

/-! ## Claim C8 -/

/-- **C8.** When the prior mean `mu0` is unset (`None`), the master
sets, for every region `r` with positive mean read-coverage,
`prior_mean[r] = log(mean(y[region_list[r]])) - sigmasq0/2` with
`sigmasq0 = b0/a0`, and leaves `prior_mean[r] = 0` for every region
whose mean coverage is zero; when `mu0` is set, `prior_mean[r] = mu0`
for every region.  (`region_list[r]` is the contiguous slice
`[lo r, hi r)`; by the documented density/contiguity invariant of the
region labels it contains exactly region `r`'s positions.) -/
theorem C8_prior_mean (logf : ℚ → ℚ) (m a0 b0 : ℚ) (y : ℤ → ℚ)
    (lo hi : ℕ → ℤ) (r : ℕ) :
    priorMean logf (some m) a0 b0 y lo hi r = m ∧
    (0 < listMean (sliceZ y (lo r) (hi r)) →
      priorMean logf none a0 b0 y lo hi r
        = logf (listMean (sliceZ y (lo r) (hi r))) - (b0 / a0) / 2) ∧
    (listMean (sliceZ y (lo r) (hi r)) = 0 →
      priorMean logf none a0 b0 y lo hi r = 0) := by
  refine ⟨by simp [priorMean], fun h => ?_, fun h => ?_⟩
  · simp [priorMean, h]
  · simp [priorMean, h]

/-- Witness for C8 on a region `[0, 2)` of constant unit coverage with
`a0 = b0 = 1` and the abstract log instantiated as `id`. -/
theorem C8_prior_mean_witness :
    0 < listMean (sliceZ (fun _ => (1 : ℚ)) 0 2) ∧
    priorMean id none 1 1 (fun _ => (1 : ℚ)) (fun _ => 0) (fun _ => 2) 0
      = id (listMean (sliceZ (fun _ => (1 : ℚ)) 0 2)) - ((1 : ℚ) / 1) / 2 := by
  have hs : sliceZ (fun _ => (1 : ℚ)) 0 2 = [1, 1] := rfl
  have hm : listMean (sliceZ (fun _ => (1 : ℚ)) 0 2) = 1 := by
    rw [hs]
    norm_num [listMean]
  have hpos : 0 < listMean (sliceZ (fun _ => (1 : ℚ)) 0 2) := by
    rw [hm]
    norm_num
  exact ⟨hpos,
    (C8_prior_mean id 0 1 1 (fun _ => (1 : ℚ)) (fun _ => 0) (fun _ => 2)
      0).2.1 hpos⟩

/-! ## Claim C9 -/

/-- **C9.** Append-only draw histories: each master iteration `t`
writes only row `t` of `theta`, `mu` and `sigmasq` (every other row of
the three history arrays is untouched by `masterIter`), and therefore
once iteration `t' ≤ n` has completed, rows `theta[t']`, `mu[t']`,
`sigmasq[t']` are never mutated by any later iteration: after any
`m ≥ n` iterations they are identical to their values after `n`
iterations.  (The one-time allocation of the `(max_iter, ·)` arrays is
the model's total history functions; only the write pattern is a
provable property.) -/
theorem C9_rows_append_only (cfg : McmcCfg) (os : ℕ → IterOracle)
    (init : McmcState) :
    (∀ (o : IterOracle) (t s : ℕ) (st : McmcState), s ≠ t →
      (masterIter cfg o t st).theta s = st.theta s ∧
      (masterIter cfg o t st).mu s = st.mu s ∧
      (masterIter cfg o t st).sigmasq s = st.sigmasq s) ∧
    (∀ n m t, t ≤ n → n ≤ m →
      (masterRun cfg os init m).theta t
        = (masterRun cfg os init n).theta t ∧
      (masterRun cfg os init m).mu t = (masterRun cfg os init n).mu t ∧
      (masterRun cfg os init m).sigmasq t
        = (masterRun cfg os init n).sigmasq t) := by
  have hframe : ∀ (o : IterOracle) (t s : ℕ) (st : McmcState), s ≠ t →
      (masterIter cfg o t st).theta s = st.theta s ∧
      (masterIter cfg o t st).mu s = st.mu s ∧
      (masterIter cfg o t st).sigmasq s = st.sigmasq s := by
    intro o t s st hst
    refine ⟨?_, ?_, ?_⟩ <;> simp [masterIter, setRow, hst]
  refine ⟨hframe, ?_⟩
  intro n m t htn
  induction m with
  | zero =>
    intro hnm
    have h0 : n = 0 := by omega
    subst h0
    exact ⟨rfl, rfl, rfl⟩
  | succ m ih =>
    intro hnm
    by_cases hm : n = m + 1
    · subst hm
      exact ⟨rfl, rfl, rfl⟩
    · have hnm' : n ≤ m := by omega
      have ht : t ≠ m + 1 := by omega
      have e : masterRun cfg os init (m + 1)
          = masterIter cfg (os (m + 1)) (m + 1) (masterRun cfg os init m) :=
        rfl
      have h1 := hframe (os (m + 1)) (m + 1) t (masterRun cfg os init m) ht
      have h2 := ih hnm'
      rw [e]
      exact ⟨h1.1.trans h2.1, h1.2.1.trans h2.2.1, h1.2.2.trans h2.2.2⟩

/-- Witness for C9: a concrete three-iteration run (one region, empty
job lists) in which row 1 after iteration 3 equals row 1 after
iteration 1. -/
theorem C9_rows_append_only_witness :
    (1 : ℕ) ≤ 1 ∧ (1 : ℕ) ≤ 3 ∧
    (masterRun (McmcCfg.mk 4 2 1 1 (fun _ => 0) (fun _ => 0) (fun _ => 4) id)
        (fun _ => IterOracle.mk [] (fun _ => 1) (fun _ => 0))
        (McmcState.mk (fun _ _ => 0) (fun _ _ => 0) (fun _ _ => 0)) 3).theta 1
      = (masterRun (McmcCfg.mk 4 2 1 1 (fun _ => 0) (fun _ => 0) (fun _ => 4) id)
        (fun _ => IterOracle.mk [] (fun _ => 1) (fun _ => 0))
        (McmcState.mk (fun _ _ => 0) (fun _ _ => 0) (fun _ _ => 0)) 1).theta 1 :=
  ⟨by decide, by decide,
    ((C9_rows_append_only
      (McmcCfg.mk 4 2 1 1 (fun _ => 0) (fun _ => 0) (fun _ => 4) id)
      (fun _ => IterOracle.mk [] (fun _ => 1) (fun _ => 0))
      (McmcState.mk (fun _ _ => 0) (fun _ _ => 0) (fun _ _ => 0))).2
      1 3 1 (by decide) (by decide)).1⟩

end Cplate
